import Mathlib

/-!
Verification of the `tauri-typed-invoke` build-script crate (`src/lib.rs`).

The crate is a single pipeline: discover `**/*.rs` files, extract names of
functions annotated with a Tauri command attribute via the regular expression
`(?m)\#\[(?:tauri::)?command][\s\w]*fn\s+([\w\d_-]+)`, and render an
`invoke.d.ts` declaration document.  Below, the regular-expression matcher is
embedded as an executable backtracking matcher with the same greedy,
leftmost, non-overlapping semantics as `Regex::captures_iter`; character
classes are modelled at ASCII granularity (the scanned input is source
text).  The filesystem and environment interactions of `build` are embedded
as explicit state passing; `Outcome.crash` models process termination via
`unwrap` panic, `Outcome.err` models an `Err` return.
-/

namespace TauriNamedInvoke

/-- ASCII model of the regex class `\w`: letters, digits, underscore. -/
def isWordChar (c : Char) : Bool := c.isAlpha || c.isDigit || c == '_'

/-- ASCII model of the regex class `\s`: the six ASCII whitespace characters. -/
def isSpaceChar (c : Char) : Bool :=
  c == ' ' || c == '\t' || c == '\n' || c == '\r' || c == '\x0b' || c == '\x0c'

/-- Model of the capture class `[\w\d_-]`: word characters plus hyphen. -/
def isIdentChar (c : Char) : Bool := isWordChar c || c == '-'

/-- Model of the class `[\s\w]` standing between the marker and `fn`. -/
def isFillChar (c : Char) : Bool := isSpaceChar c || isWordChar c

/-- Match a concrete literal pattern as a prefix, returning the rest. -/
def stripPfx : List Char → List Char → Option (List Char)
  | [], s => some s
  | _ :: _, [] => none
  | p :: ps, c :: cs => if c = p then stripPfx ps cs else none

/-- The unqualified marker literal `#[command]`. -/
def markerU : List Char :=
  '#' :: '[' :: 'c' :: 'o' :: 'm' :: 'm' :: 'a' :: 'n' :: 'd' :: ']' :: []

/-- The qualified marker literal `#[tauri::command]`. -/
def markerQ : List Char :=
  '#' :: '[' :: 't' :: 'a' :: 'u' :: 'r' :: 'i' :: ':' :: ':' ::
  'c' :: 'o' :: 'm' :: 'm' :: 'a' :: 'n' :: 'd' :: ']' :: []

/-- Match `\s+([\w\d_-]+)` at the head of `t`: a nonempty maximal whitespace
run, then a nonempty maximal identifier run (the capture), returning the
capture and the rest.  The two classes are disjoint, so the greedy runs need
no backtracking. -/
def fnTail (t : List Char) : Option (List Char × List Char) :=
  if (t.takeWhile isSpaceChar).isEmpty then none
  else if ((t.dropWhile isSpaceChar).takeWhile isIdentChar).isEmpty then none
  else some ((t.dropWhile isSpaceChar).takeWhile isIdentChar,
             (t.dropWhile isSpaceChar).dropWhile isIdentChar)

/-- Match the literal `fn` followed by `fnTail`. -/
def tryFn : List Char → Option (List Char × List Char)
  | c1 :: c2 :: t => if c1 = 'f' ∧ c2 = 'n' then fnTail t else none
  | _ => none

/-- Greedy match of `[\s\w]*fn\s+([\w\d_-]+)`: consume fill characters as
long as possible, backtracking from the longest fill run first, exactly as
the regex engine does. -/
def matchFill : List Char → Option (List Char × List Char)
  | [] => none
  | c :: t =>
    if isFillChar c then
      match matchFill t with
      | some r => some r
      | none => tryFn (c :: t)
    else tryFn (c :: t)

/-- Match the whole pattern `\#\[(?:tauri::)?command][\s\w]*fn\s+([\w\d_-]+)`
at the head of `s`, returning the captured identifier and the rest of the
input after the match.  The two marker alternatives are mutually exclusive
on any input, so trying the qualified form first is not a choice point. -/
def matchCmd (s : List Char) : Option (List Char × List Char) :=
  match stripPfx markerQ s with
  | some r => matchFill r
  | none =>
    match stripPfx markerU s with
    | some r => matchFill r
    | none => none

/-- One pass of `captures_iter`: scan left to right, at each position try the
pattern; on a match emit the capture and resume after the match, otherwise
advance one character.  Fuel bounds the recursion; `scanNames` supplies
enough fuel for the whole input. -/
def scanFrom : Nat → List Char → List (List Char)
  | 0, _ => []
  | _ + 1, [] => []
  | fuel + 1, c :: t =>
    match matchCmd (c :: t) with
    | some (id, rest) => id :: scanFrom fuel rest
    | none => scanFrom fuel t

/-- All captures of the command regex over one file's text, in source order:
the embedding of the `captures_iter` loop body of `parse_functions`. -/
def scanNames (t : List Char) : List (List Char) := scanFrom t.length t

/-- The capture at every suffix position of `t`, in position order.  This is
the per-position (occurrence-by-occurrence) reading of the pattern, against
which the skipping scanner is proved correct. -/
def occIdents : List Char → List (List Char)
  | [] => []
  | c :: t => ((matchCmd (c :: t)).map Prod.fst).toList ++ occIdents t

/-- Declarative statement that the command pattern matches at position `p` of
`t`: a marker (either form), a run of fill characters, the token `fn`, a
nonempty whitespace run and a nonempty identifier. -/
def OccAt (t : List Char) (p : Nat) : Prop :=
  ∃ mk pre sp id rest,
    (mk = markerU ∨ mk = markerQ) ∧
    t.drop p = mk ++ (pre ++ ('f' :: 'n' :: (sp ++ (id ++ rest)))) ∧
    pre.all isFillChar = true ∧
    sp ≠ [] ∧ sp.all isSpaceChar = true ∧
    id ≠ [] ∧ id.all isIdentChar = true

/-- A marker (either form) stands at position `p` of `t`. -/
def hasMarkerAt (t : List Char) (p : Nat) : Bool :=
  (stripPfx markerQ (t.drop p)).isSome || (stripPfx markerU (t.drop p)).isSome

/-- One discovered path of the `glob("**/*.rs")` traversal: either a readable
file with its text, or a discovery/read failure with its cause (a `GlobError`
or an `io::Error` rendered as a message). -/
inductive FileEntry where
  | ok (content : List Char)
  | err (msg : String)
deriving DecidableEq

/-- Result of a step of the pipeline.  `ok` is normal completion, `err` is an
`Err` value returned to the caller, `crash` is process termination through a
panicking `unwrap`. -/
inductive Outcome (α : Type) where
  | ok (a : α)
  | err (msg : String)
  | crash (msg : String)
deriving DecidableEq

/-- Embedding of `parse_functions`: walk the discovered entries in traversal
order; `file.unwrap()` / `read_to_string(..).unwrap()` panic on the first
errored entry; otherwise append each file's captures in order. -/
def parse_functions : List FileEntry → Outcome (List (List Char))
  | [] => Outcome.ok []
  | FileEntry.err m :: _ => Outcome.crash m
  | FileEntry.ok c :: rest =>
    match parse_functions rest with
    | Outcome.ok names => Outcome.ok (scanNames c ++ names)
    | Outcome.err m => Outcome.err m
    | Outcome.crash m => Outcome.crash m

/-- The cause of the first errored entry of the traversal, if any. -/
def firstErr : List FileEntry → Option String
  | [] => none
  | FileEntry.err m :: _ => some m
  | FileEntry.ok _ :: rest => firstErr rest

/-- Fixed leading part of the generated document, up to the first union
member (the braces and quotes of the TypeScript text are escaped). -/
def tmplHead : String :=
  "import * as tauri from \x27@tauri-apps/api/tauri\x27;\ndeclare module \x27@tauri-apps/api/tauri\x27 \x7b\n    type Commands = \n\t\t  "

/-- Fixed trailing part of the generated document, after the last member. -/
def tmplTail : String :=
  ";\n    function invoke<T>(cmd: Commands, args?: InvokeArgs): Promise<T>;\n\x7d"

/-- Embedding of `Vec::join`: empty input gives the empty string, otherwise
the separator is interposed between consecutive elements. -/
def rust_join (sep : String) : List String → String
  | [] => ""
  | [x] => x
  | x :: xs => x ++ sep ++ rust_join sep xs

/-- Embedding of `get_content`: quote each name, join with a newline, two
tabs, a pipe and a space, and splice into the template. -/
def get_content (names : List String) : String :=
  tmplHead ++ rust_join "\n\t\t| " (names.map (fun f => "\x27" ++ f ++ "\x27")) ++ tmplTail

/-- The union member list as the specification words it: each name quoted,
every entry after the first preceded by a line break, indentation, a pipe and
a space (the indentation corrected to the two tabs the code emits). -/
def spec_union : List String → String
  | [] => ""
  | [n] => "\x27" ++ n ++ "\x27"
  | n :: rest => "\x27" ++ n ++ "\x27" ++ "\n\t\t| " ++ spec_union rest

/-- Modelled from the spec: the whole declaration document of section 4.3,
the fixed boilerplate around the union member list. -/
def spec_document (names : List String) : String :=
  tmplHead ++ spec_union names ++ tmplTail

/-- Substring test: some suffix of `s` starts with `pat`. -/
def hasSub (pat s : List Char) : Bool :=
  (List.range (s.length + 1)).any (fun p => pat.isPrefixOf (s.drop p))

/-- Minimal filesystem state: the set of existing directories and the
existing files with their contents, paths as component lists. -/
structure FS where
  dirs : List (List String)
  files : List (List String × String)
deriving DecidableEq

/-- Semantics of `std::fs::write`: create or truncate the file when its
parent directory exists, otherwise fail with the `NotFound` I/O error.  It
never creates directories. -/
def fs_write (fs : FS) (dir : List String) (fname : String) (content : String) :
    Except String FS :=
  if fs.dirs.contains dir then
    Except.ok ⟨fs.dirs,
      (dir ++ [fname], content) :: fs.files.filter (fun e => !(e.1 == dir ++ [fname]))⟩
  else Except.error "No such file or directory (os error 2)"

/-- Embedding of `build`: read `CARGO_MANIFEST_DIR` first (its absence is the
`VarError::NotPresent` error, propagated by `?`), then extract names from the
discovered entries, then write `invoke.d.ts` under `<root>/<rel>`.  The
returned state is the filesystem after the call; on `err` and `crash` it is
unchanged, since the write is the last step. -/
def build (envVar : Option String) (rel : String) (entries : List FileEntry)
    (fs : FS) : Outcome Unit × FS :=
  match envVar with
  | none => (Outcome.err "environment variable not found", fs)
  | some root =>
    match parse_functions entries with
    | Outcome.crash m => (Outcome.crash m, fs)
    | Outcome.err m => (Outcome.err m, fs)
    | Outcome.ok names =>
      match fs_write fs [root, rel] "invoke.d.ts"
          (get_content (names.map (fun l => String.mk l))) with
      | Except.ok fs2 => (Outcome.ok (), fs2)
      | Except.error m => (Outcome.err m, fs)

/-- No identifier character is a whitespace character. -/
lemma ident_not_space {c : Char} (h : isIdentChar c = true) : isSpaceChar c = false := by
  by_cases h1 : c = ' '
  · subst h1; exact absurd h (by decide)
  by_cases h2 : c = '\t'
  · subst h2; exact absurd h (by decide)
  by_cases h3 : c = '\n'
  · subst h3; exact absurd h (by decide)
  by_cases h4 : c = '\r'
  · subst h4; exact absurd h (by decide)
  by_cases h5 : c = '\x0b'
  · subst h5; exact absurd h (by decide)
  by_cases h6 : c = '\x0c'
  · subst h6; exact absurd h (by decide)
  simp [isSpaceChar, h1, h2, h3, h4, h5, h6]

/-- Whitespace characters are fill characters. -/
lemma space_fill {c : Char} (h : isSpaceChar c = true) : isFillChar c = true := by
  simp [isFillChar, h]

/-- Fill characters are never the hash that opens a marker. -/
lemma fill_ne_hash {c : Char} (h : isFillChar c = true) : (!(c == '#')) = true := by
  by_cases hc : c = '#'
  · subst hc; exact absurd h (by decide)
  · simp [hc]

/-- Identifier characters are never the hash that opens a marker. -/
lemma ident_ne_hash {c : Char} (h : isIdentChar c = true) : (!(c == '#')) = true := by
  by_cases hc : c = '#'
  · subst hc; exact absurd h (by decide)
  · simp [hc]

/-- Every element of a `takeWhile` run satisfies the predicate. -/
lemma takeWhile_all (p : Char → Bool) : ∀ l : List Char, ((l.takeWhile p).all p) = true
  | [] => rfl
  | c :: t => by
    cases hc : p c
    · simp [List.takeWhile_cons, hc]
    · simp [List.takeWhile_cons, hc, takeWhile_all p t]

/-- A run of elements satisfying `p` followed by a blocked head is exactly
what `takeWhile`/`dropWhile` split off. -/
lemma run_split (p : Char → Bool) :
    ∀ (sp rest : List Char), sp.all p = true →
    (∀ c, rest.head? = some c → p c = false) →
    (sp ++ rest).takeWhile p = sp ∧ (sp ++ rest).dropWhile p = rest
  | [], rest, _, h2 => by
    cases rest with
    | nil => simp
    | cons c r =>
      have hc : p c = false := h2 c rfl
      simp [List.takeWhile_cons, List.dropWhile_cons, hc]
  | c :: sp, rest, h1, h2 => by
    simp only [List.all_cons, Bool.and_eq_true] at h1
    have ih := run_split p sp rest h1.2 h2
    simp [List.takeWhile_cons, List.dropWhile_cons, h1.1, ih.1, ih.2]

/-- A successful `stripPfx` means the pattern is a literal prefix. -/
lemma stripPfx_eq_append : ∀ (p s r : List Char), stripPfx p s = some r → s = p ++ r
  | [], s, r, h => by simpa [stripPfx] using h
  | _ :: _, [], _, h => by simp [stripPfx] at h
  | p :: ps, c :: cs, r, h => by
    by_cases hc : c = p
    · subst hc
      simp only [stripPfx, if_pos rfl] at h
      simpa using stripPfx_eq_append ps cs r h
    · simp [stripPfx, hc] at h

/-- Decomposition of a successful `fnTail` match. -/
lemma fnTail_some {t id rest : List Char} (h : fnTail t = some (id, rest)) :
    ∃ sp, t = sp ++ (id ++ rest) ∧ sp ≠ [] ∧ sp.all isSpaceChar = true ∧
      id ≠ [] ∧ id.all isIdentChar = true := by
  unfold fnTail at h
  split_ifs at h with h1 h2
  injection h with h
  injection h with hid hrest
  refine ⟨t.takeWhile isSpaceChar, ?_, ?_, takeWhile_all _ _, ?_, ?_⟩
  · subst hid hrest
    rw [List.takeWhile_append_dropWhile, List.takeWhile_append_dropWhile]
  · intro hnil
    rw [hnil] at h1
    exact h1 rfl
  · intro hnil
    rw [← hid] at hnil
    rw [hnil] at h2
    exact h2 rfl
  · subst hid
    exact takeWhile_all _ _

/-- Completeness of `fnTail`: a whitespace run followed by an identifier run
is accepted. -/
lemma fnTail_complete {sp id rest : List Char} (hsp : sp ≠ [])
    (hsa : sp.all isSpaceChar = true) (hid : id ≠ []) (hia : id.all isIdentChar = true) :
    (fnTail (sp ++ (id ++ rest))).isSome = true := by
  cases id with
  | nil => exact absurd rfl hid
  | cons i ii =>
    simp only [List.all_cons, Bool.and_eq_true] at hia
    have hsplit := run_split isSpaceChar sp ((i :: ii) ++ rest) hsa
      (by intro c hc; injection hc with hc; subst hc; exact ident_not_space hia.1)
    unfold fnTail
    rw [hsplit.1, hsplit.2]
    have hne : sp.isEmpty = false := by cases sp with
      | nil => exact absurd rfl hsp
      | cons _ _ => rfl
    simp [hne, List.takeWhile_cons, hia.1]

/-- Decomposition of a successful `tryFn` match. -/
lemma tryFn_some {s id rest : List Char} (h : tryFn s = some (id, rest)) :
    ∃ sp, s = 'f' :: 'n' :: (sp ++ (id ++ rest)) ∧ sp ≠ [] ∧
      sp.all isSpaceChar = true ∧ id ≠ [] ∧ id.all isIdentChar = true := by
  match s with
  | [] => simp [tryFn] at h
  | [_] => simp [tryFn] at h
  | c1 :: c2 :: t =>
    have h' : (if c1 = 'f' ∧ c2 = 'n' then fnTail t else none) = some (id, rest) := h
    split_ifs at h' with hc
    obtain ⟨sp, ht, hx⟩ := fnTail_some h'
    exact ⟨sp, by rw [hc.1, hc.2, ht], hx⟩

/-- Completeness of `tryFn`. -/
lemma tryFn_complete {sp id rest : List Char} (hsp : sp ≠ [])
    (hsa : sp.all isSpaceChar = true) (hid : id ≠ []) (hia : id.all isIdentChar = true) :
    (tryFn ('f' :: 'n' :: (sp ++ (id ++ rest)))).isSome = true := by
  show (fnTail (sp ++ (id ++ rest))).isSome = true
  exact fnTail_complete hsp hsa hid hia

/-- Decomposition of a successful `matchFill` match. -/
lemma matchFill_some : ∀ {s id rest : List Char}, matchFill s = some (id, rest) →
    ∃ pre sp, s = pre ++ ('f' :: 'n' :: (sp ++ (id ++ rest))) ∧
      pre.all isFillChar = true ∧ sp ≠ [] ∧ sp.all isSpaceChar = true ∧
      id ≠ [] ∧ id.all isIdentChar = true := by
  intro s
  induction s with
  | nil => intro id rest h; simp [matchFill] at h
  | cons c t ih =>
    intro id rest h
    unfold matchFill at h
    by_cases hc : isFillChar c = true
    · rw [if_pos hc] at h
      cases hm : matchFill t with
      | some r =>
        rw [hm] at h
        have h' : some r = some (id, rest) := h
        injection h' with h'
        obtain ⟨pre, sp, ht, hpre, hx⟩ := ih (hm.trans (by rw [h']))
        exact ⟨c :: pre, sp, by rw [ht, List.cons_append],
          by simp [List.all_cons, hc, hpre], hx⟩
      | none =>
        rw [hm] at h
        have h' : tryFn (c :: t) = some (id, rest) := h
        obtain ⟨sp, ht, hx⟩ := tryFn_some h'
        exact ⟨[], sp, ht, rfl, hx⟩
    · rw [if_neg hc] at h
      obtain ⟨sp, ht, hx⟩ := tryFn_some h
      exact ⟨[], sp, ht, rfl, hx⟩

/-- Completeness of `matchFill`: any fill run followed by `fn`, whitespace
and an identifier is accepted (with some capture). -/
lemma matchFill_complete : ∀ (pre : List Char), pre.all isFillChar = true →
    ∀ {sp id rest : List Char}, sp ≠ [] → sp.all isSpaceChar = true →
    id ≠ [] → id.all isIdentChar = true →
    (matchFill (pre ++ ('f' :: 'n' :: (sp ++ (id ++ rest))))).isSome = true
  | [], _, sp, id, rest, hsp, hsa, hid, hia => by
    show (matchFill ('f' :: 'n' :: (sp ++ (id ++ rest)))).isSome = true
    unfold matchFill
    rw [if_pos (by decide : isFillChar 'f' = true)]
    cases hm : matchFill ('n' :: (sp ++ (id ++ rest))) with
    | some r => rfl
    | none => exact tryFn_complete hsp hsa hid hia
  | c :: pre, hall, sp, id, rest, hsp, hsa, hid, hia => by
    simp only [List.all_cons, Bool.and_eq_true] at hall
    have ih : (matchFill (pre ++ ('f' :: 'n' :: (sp ++ (id ++ rest))))).isSome = true :=
      matchFill_complete pre hall.2 hsp hsa hid hia
    show (matchFill (c :: (pre ++ ('f' :: 'n' :: (sp ++ (id ++ rest)))))).isSome = true
    unfold matchFill
    rw [if_pos hall.1]
    cases hm : matchFill (pre ++ ('f' :: 'n' :: (sp ++ (id ++ rest)))) with
    | some r => rfl
    | none => rw [hm] at ih; simp at ih

/-- Pointwise implication lifts through `List.all`. -/
lemma all_imp {p q : Char → Bool} (hpq : ∀ c, p c = true → q c = true) :
    ∀ {l : List Char}, l.all p = true → l.all q = true := by
  intro l hl
  rw [List.all_eq_true] at hl ⊢
  exact fun x hx => hpq x (hl x hx)

/-- A list that contains no hash character. -/
def noHash (l : List Char) : Bool := l.all (fun c => !(c == '#'))

/-- Decomposition of a successful whole-pattern match: a marker, a fill run,
the token `fn`, nonempty whitespace, and the nonempty captured identifier. -/
lemma matchCmd_some {s id rest : List Char} (h : matchCmd s = some (id, rest)) :
    ∃ mk pre sp, (mk = markerU ∨ mk = markerQ) ∧
      s = mk ++ (pre ++ ('f' :: 'n' :: (sp ++ (id ++ rest)))) ∧
      pre.all isFillChar = true ∧ sp ≠ [] ∧ sp.all isSpaceChar = true ∧
      id ≠ [] ∧ id.all isIdentChar = true := by
  unfold matchCmd at h
  cases hq : stripPfx markerQ s with
  | some r =>
    rw [hq] at h
    have h' : matchFill r = some (id, rest) := h
    obtain ⟨pre, sp, hr, hx⟩ := matchFill_some h'
    exact ⟨markerQ, pre, sp, Or.inr rfl, by rw [stripPfx_eq_append _ _ _ hq, hr], hx⟩
  | none =>
    rw [hq] at h
    cases hu : stripPfx markerU s with
    | some r =>
      rw [hu] at h
      have h' : matchFill r = some (id, rest) := h
      obtain ⟨pre, sp, hr, hx⟩ := matchFill_some h'
      exact ⟨markerU, pre, sp, Or.inl rfl, by rw [stripPfx_eq_append _ _ _ hu, hr], hx⟩
    | none =>
      rw [hu] at h
      exact absurd h (by simp)

/-- A match consumes at least the marker, so the rest is strictly shorter. -/
lemma matchCmd_rest_lt {s id rest : List Char} (h : matchCmd s = some (id, rest)) :
    rest.length < s.length := by
  obtain ⟨mk, pre, sp, hmk, hs, _⟩ := matchCmd_some h
  subst hs
  rcases hmk with rfl | rfl <;>
    simp [markerU, markerQ, List.length_append] <;> omega

/-- A match starts with a hash, and no hash occurs later inside the matched
span: no other match can begin strictly inside this one. -/
lemma matchCmd_hash {s id rest : List Char} (h : matchCmd s = some (id, rest)) :
    ∃ mid, s = '#' :: (mid ++ rest) ∧ noHash mid = true := by
  obtain ⟨mk, pre, sp, hmk, hs, hpre, _, hsp, _, hid⟩ := matchCmd_some h
  have hfill : noHash pre = true := all_imp (fun c hc => fill_ne_hash hc) hpre
  have hsph : noHash sp = true :=
    all_imp (fun c hc => fill_ne_hash (space_fill hc)) hsp
  have hidh : noHash id = true := all_imp (fun c hc => ident_ne_hash hc) hid
  rcases hmk with rfl | rfl
  · refine ⟨('[' :: 'c' :: 'o' :: 'm' :: 'm' :: 'a' :: 'n' :: 'd' :: ']' :: []) ++
      (pre ++ ('f' :: 'n' :: (sp ++ id))), ?_, ?_⟩
    · rw [hs]; simp [markerU, List.append_assoc, List.cons_append]
    · simp only [noHash, List.all_append, List.all_cons, Bool.and_eq_true] at *
      refine ⟨by decide, hfill, by decide, by decide, hsph, hidh⟩
  · refine ⟨('[' :: 't' :: 'a' :: 'u' :: 'r' :: 'i' :: ':' :: ':' ::
      'c' :: 'o' :: 'm' :: 'm' :: 'a' :: 'n' :: 'd' :: ']' :: []) ++
      (pre ++ ('f' :: 'n' :: (sp ++ id))), ?_, ?_⟩
    · rw [hs]; simp [markerQ, List.append_assoc, List.cons_append]
    · simp only [noHash, List.all_append, List.all_cons, Bool.and_eq_true] at *
      refine ⟨by decide, hfill, by decide, by decide, hsph, hidh⟩

/-- The pattern cannot match where the head is not a hash. -/
lemma matchCmd_none_head {c : Char} {t : List Char} (h : (!(c == '#')) = true) :
    matchCmd (c :: t) = none := by
  have hc : ¬ (c = '#') := by simpa using h
  simp [matchCmd, markerQ, markerU, stripPfx, hc]

/-- A successful match means one of the two marker literals is a prefix. -/
lemma matchCmd_has_marker {s : List Char} {r : List Char × List Char}
    (h : matchCmd s = some r) :
    ((stripPfx markerQ s).isSome || (stripPfx markerU s).isSome) = true := by
  unfold matchCmd at h
  cases hq : stripPfx markerQ s with
  | some x => simp [hq]
  | none =>
    rw [hq] at h
    cases hu : stripPfx markerU s with
    | some x => simp [hu]
    | none => rw [hu] at h; exact absurd h (by simp)

/-- Positions inside a hash-free segment contribute no occurrences. -/
lemma occIdents_append_noHash : ∀ (pre t : List Char), noHash pre = true →
    occIdents (pre ++ t) = occIdents t
  | [], _, _ => rfl
  | c :: pre, t, h => by
    simp only [noHash, List.all_cons, Bool.and_eq_true] at h
    have hm : matchCmd (c :: (pre ++ t)) = none := matchCmd_none_head h.1
    show ((matchCmd (c :: (pre ++ t))).map Prod.fst).toList ++ occIdents (pre ++ t) =
      occIdents t
    rw [hm]
    simpa using occIdents_append_noHash pre t h.2

/-- A match at the head contributes its capture, and the rest of the matched
span contributes nothing. -/
lemma occIdents_match {t id rest : List Char} (h : matchCmd t = some (id, rest)) :
    occIdents t = id :: occIdents rest := by
  obtain ⟨mid, hts, hmid⟩ := matchCmd_hash h
  subst hts
  show ((matchCmd ('#' :: (mid ++ rest))).map Prod.fst).toList ++
    occIdents (mid ++ rest) = id :: occIdents rest
  rw [h, occIdents_append_noHash mid rest hmid]
  rfl

/-- The skipping scanner agrees with the per-position occurrence list, given
enough fuel. -/
lemma scanFrom_eq_occ : ∀ (fuel : Nat) (t : List Char), t.length ≤ fuel →
    scanFrom fuel t = occIdents t := by
  intro fuel
  induction fuel with
  | zero =>
    intro t ht
    have : t = [] := List.eq_nil_of_length_eq_zero (Nat.le_zero.mp ht)
    subst this; rfl
  | succ f ih =>
    intro t ht
    cases t with
    | nil => rfl
    | cons c t' =>
      show (match matchCmd (c :: t') with
            | some (id, rest) => id :: scanFrom f rest
            | none => scanFrom f t') = occIdents (c :: t')
      cases hm : matchCmd (c :: t') with
      | none =>
        have hle : t'.length ≤ f := by
          simp only [List.length_cons] at ht; omega
        rw [show occIdents (c :: t') =
          ((matchCmd (c :: t')).map Prod.fst).toList ++ occIdents t' from rfl, hm]
        simpa using ih t' hle
      | some r =>
        obtain ⟨id, rest⟩ := r
        have hlt : rest.length < (c :: t').length := matchCmd_rest_lt hm
        have hle : rest.length ≤ f := by
          simp only [List.length_cons] at hlt ht; omega
        rw [occIdents_match hm]
        simpa using ih rest hle

/-- The scanner output is exactly the per-position occurrence list. -/
lemma scanNames_eq_occ (t : List Char) : scanNames t = occIdents t :=
  scanFrom_eq_occ t.length t (Nat.le_refl _)

/-- A match at the head of the text yields its capture first, then the scan
of the remainder. -/
lemma scanNames_match {t id rest : List Char} (h : matchCmd t = some (id, rest)) :
    scanNames t = id :: scanNames rest := by
  rw [scanNames_eq_occ, scanNames_eq_occ]
  exact occIdents_match h

/-- Hash-free text yields no captures. -/
lemma scanNames_noHash {s : List Char} (h : noHash s = true) : scanNames s = [] := by
  rw [scanNames_eq_occ]
  have := occIdents_append_noHash s [] h
  simpa using this

/-- The qualified marker literal never strips after the unqualified one. -/
lemma stripQ_on_U (x : List Char) : stripPfx markerQ (markerU ++ x) = none := rfl

/-- Stripping the unqualified marker off itself. -/
lemma stripU_self (x : List Char) : stripPfx markerU (markerU ++ x) = some x := rfl

/-- Stripping the qualified marker off itself. -/
lemma stripQ_self (x : List Char) : stripPfx markerQ (markerQ ++ x) = some x := rfl

/-- The unqualified marker literal never strips after the qualified one. -/
lemma stripU_on_Q (x : List Char) : stripPfx markerU (markerQ ++ x) = none := rfl

/-- Reduce a whole-pattern match after the unqualified marker. -/
lemma matchCmd_markerU {x : List Char} {r : List Char × List Char}
    (h : matchFill x = some r) : matchCmd (markerU ++ x) = some r := by
  unfold matchCmd
  rw [stripQ_on_U, stripU_self]
  exact h

/-- Reduce a whole-pattern match after the qualified marker. -/
lemma matchCmd_markerQ {x : List Char} {r : List Char × List Char}
    (h : matchFill x = some r) : matchCmd (markerQ ++ x) = some r := by
  unfold matchCmd
  rw [stripQ_self]
  exact h

/-- A fill run before an accepted tail is consumed greedily and does not
change the result. -/
lemma matchFill_fill_run : ∀ (mid : List Char), mid.all isFillChar = true →
    ∀ {sfx : List Char} {r : List Char × List Char},
    matchFill sfx = some r → matchFill (mid ++ sfx) = some r
  | [], _, sfx, r, h => by simpa using h
  | c :: mid, hall, sfx, r, h => by
    simp only [List.all_cons, Bool.and_eq_true] at hall
    have ih := matchFill_fill_run mid hall.2 h
    show matchFill (c :: (mid ++ sfx)) = some r
    unfold matchFill
    rw [if_pos hall.1, ih]

/-- Completeness: the pattern matches wherever the declarative occurrence
shape is present. -/
lemma occ_complete {t : List Char} {p : Nat} (h : OccAt t p) :
    (matchCmd (t.drop p)).isSome = true := by
  obtain ⟨mk, pre, sp, id, rest, hmk, hdrop, hpre, hsp, hsa, hid, hia⟩ := h
  rw [hdrop]
  rcases hmk with rfl | rfl
  · unfold matchCmd
    rw [stripQ_on_U, stripU_self]
    exact matchFill_complete pre hpre hsp hsa hid hia
  · unfold matchCmd
    rw [stripQ_self]
    exact matchFill_complete pre hpre hsp hsa hid hia

/-- Soundness: a successful match exhibits the declarative occurrence shape. -/
lemma occ_sound {t : List Char} {p : Nat} (h : (matchCmd (t.drop p)).isSome = true) :
    OccAt t p := by
  cases hm : matchCmd (t.drop p) with
  | none => rw [hm] at h; simp at h
  | some r =>
    obtain ⟨id, rest⟩ := r
    obtain ⟨mk, pre, sp, hmk, hs, hx⟩ := matchCmd_some hm
    exact ⟨mk, pre, sp, id, rest, hmk, hs, hx⟩

/-- If no position matches, the occurrence list is empty. -/
lemma occIdents_nil_of_nomatch : ∀ t : List Char,
    (∀ p, p < t.length → matchCmd (t.drop p) = none) → occIdents t = []
  | [], _ => rfl
  | c :: t, h => by
    have h0 : matchCmd (c :: t) = none := h 0 (Nat.succ_pos _)
    show ((matchCmd (c :: t)).map Prod.fst).toList ++ occIdents t = []
    rw [h0]
    exact occIdents_nil_of_nomatch t
      (fun p hp => by simpa using h (p + 1) (Nat.succ_lt_succ hp))

/-- Every occurrence-list member is the capture of a match at some position. -/
lemma occ_mem : ∀ (t : List Char) (name : List Char), name ∈ occIdents t →
    ∃ p, (matchCmd (t.drop p)).map Prod.fst = some name
  | [], name, h => absurd h (List.not_mem_nil name)
  | c :: t, name, h => by
    rcases List.mem_append.mp h with h1 | h1
    · cases hm : matchCmd (c :: t) with
      | none => rw [hm] at h1; simp at h1
      | some r =>
        rw [hm] at h1
        have h2 : name = r.1 := by simpa using h1
        exact ⟨0, by simp [hm, h2]⟩
    · obtain ⟨p, hp⟩ := occ_mem t name h1
      exact ⟨p + 1, by simpa using hp⟩

/-- `parse_functions` on error-free traversals: per-file captures are
appended file by file, in order, with no deduplication. -/
lemma parse_ok : ∀ files : List (List Char),
    parse_functions (files.map FileEntry.ok) =
      Outcome.ok ((files.map scanNames).flatten)
  | [] => rfl
  | f :: fs => by
    show (match parse_functions (fs.map FileEntry.ok) with
          | Outcome.ok names => Outcome.ok (scanNames f ++ names)
          | Outcome.err m => Outcome.err m
          | Outcome.crash m => Outcome.crash m) =
      Outcome.ok (((f :: fs).map scanNames).flatten)
    rw [parse_ok fs]
    rfl

/-- The first discovery error makes `parse_functions` panic with its cause. -/
lemma parse_crash : ∀ {entries : List FileEntry} {m : String},
    firstErr entries = some m → parse_functions entries = Outcome.crash m := by
  intro entries
  induction entries with
  | nil => intro m h; simp [firstErr] at h
  | cons e rest ih =>
    intro m h
    cases e with
    | err m' =>
      have hm : m' = m := by simpa [firstErr] using h
      subst hm; rfl
    | ok c =>
      have h' : firstErr rest = some m := h
      show (match parse_functions rest with
            | Outcome.ok names => Outcome.ok (scanNames c ++ names)
            | Outcome.err m => Outcome.err m
            | Outcome.crash m => Outcome.crash m) = Outcome.crash m
      rw [ih h']

/-- An error-free traversal always extracts successfully. -/
lemma parse_ok_of_noErr : ∀ {entries : List FileEntry}, firstErr entries = none →
    ∃ names, parse_functions entries = Outcome.ok names := by
  intro entries
  induction entries with
  | nil => intro _; exact ⟨[], rfl⟩
  | cons e rest ih =>
    intro h
    cases e with
    | err m' => simp [firstErr] at h
    | ok c =>
      obtain ⟨ns, hns⟩ := ih h
      refine ⟨scanNames c ++ ns, ?_⟩
      show (match parse_functions rest with
            | Outcome.ok names => Outcome.ok (scanNames c ++ names)
            | Outcome.err m => Outcome.err m
            | Outcome.crash m => Outcome.crash m) = Outcome.ok (scanNames c ++ ns)
      rw [hns]

/-- The code's quote-and-join of the member list agrees with the
specification-worded recursive rendering of the union members. -/
lemma join_eq_spec_union : ∀ names : List String,
    rust_join "\n\t\t| " (names.map (fun f => "\x27" ++ f ++ "\x27")) = spec_union names
  | [] => rfl
  | [_] => rfl
  | n :: m :: rest => by
    show ("\x27" ++ n ++ "\x27") ++ "\n\t\t| " ++
      rust_join "\n\t\t| " ((m :: rest).map (fun f => "\x27" ++ f ++ "\x27")) =
      spec_union (n :: m :: rest)
    rw [join_eq_spec_union (m :: rest)]
    rfl

set_option maxRecDepth 8192 in
/-- Claim C1 counterexample: for the names `get_weather`, `get_config` the
rendered document does not contain the claimed joiner of a line break, ONE
tab, a pipe and a space between the two quoted entries: the code joins with
a line break, TWO tabs, a pipe and a space. -/
theorem get_content_single_tab_join_refuted :
    hasSub ("\x27get_weather\x27\n\t| \x27get_config\x27").data
      (get_content ["get_weather", "get_config"]).data = false := by
  decide

/-- Claim C1, amended (two tabs, not one, precede the pipe): every rendered
document is the template boilerplate around the quoted names joined with a
line break, two tabs, a pipe and a space; in particular the two-name example
renders to exactly the expected text. -/
theorem get_content_two_tab_join :
    (∀ names : List String, get_content names = spec_document names) ∧
    get_content ["get_weather", "get_config"] =
      "import * as tauri from \x27@tauri-apps/api/tauri\x27;\ndeclare module \x27@tauri-apps/api/tauri\x27 \x7b\n    type Commands = \n\t\t  \x27get_weather\x27\n\t\t| \x27get_config\x27;\n    function invoke<T>(cmd: Commands, args?: InvokeArgs): Promise<T>;\n\x7d" := by
  constructor
  · intro names
    unfold get_content spec_document
    rw [join_eq_spec_union]
  · rfl

/-- Claim C2 counterexample: a marker carrying an argument list, as in
`#[command(rename_all)]` before `fn get_config`, yields no capture at all:
the pattern requires the closing bracket immediately after `command`. -/
theorem marker_arg_list_not_captured :
    scanNames ("#[command(rename_all)]\nfn get_config()".data) = [] := by
  decide

/-- Claim C2, amended (no argument list is tolerated): the extractor
recognizes the marker written unqualified or qualified by the fixed
namespace prefix, with no argument list permitted, tolerates any whitespace
and word characters (including newlines) before the token `fn` followed by
whitespace and an identifier, and captures the identifier. -/
theorem marker_forms_capture :
    ∀ mid : List Char, mid.all isFillChar = true →
    scanNames (markerU ++ mid ++ ("fn get_config()".data)) = ["get_config".data] ∧
    scanNames (markerQ ++ mid ++ ("fn get_config()".data)) = ["get_config".data] := by
  intro mid hmid
  have hbase : matchFill ("fn get_config()".data) =
      some ("get_config".data, "()".data) := by decide
  have hfill := matchFill_fill_run mid hmid hbase
  have hrest : scanNames ("()".data) = [] := scanNames_noHash (by decide)
  constructor
  · rw [List.append_assoc, scanNames_match (matchCmd_markerU hfill), hrest]
  · rw [List.append_assoc, scanNames_match (matchCmd_markerQ hfill), hrest]

/-- Witness for the amended claim C2 at a newline separator. -/
theorem marker_forms_capture_witness :
    (("\n".data).all isFillChar = true) ∧
    scanNames (markerU ++ "\n".data ++ ("fn get_config()".data)) = ["get_config".data] ∧
    scanNames (markerQ ++ "\n".data ++ ("fn get_config()".data)) = ["get_config".data] :=
  ⟨by decide, (marker_forms_capture ("\n".data) (by decide)).1,
    (marker_forms_capture ("\n".data) (by decide)).2⟩

/-- Claim C3 counterexample: a comment between the marker and the function
prevents capture — the slash is neither whitespace nor a word character, so
the span between marker and `fn` may not contain it. -/
theorem comment_breaks_capture :
    scanNames ("#[command]\n// a comment\nfn get_weather()".data) = [] := by
  decide

/-- Claim C3, amended (blank lines yes, comments no): a marker and its
function may be separated by any amount of whitespace, including blank
lines, and the identifier is still captured; comments in between prevent
the capture. -/
theorem blank_lines_tolerated :
    ∀ mid : List Char, mid.all isSpaceChar = true →
    scanNames (markerU ++ mid ++ ("fn get_weather()".data)) = ["get_weather".data] := by
  intro mid hmid
  have hmid' : mid.all isFillChar = true := all_imp (fun _ hc => space_fill hc) hmid
  have hbase : matchFill ("fn get_weather()".data) =
      some ("get_weather".data, "()".data) := by decide
  have hrest : scanNames ("()".data) = [] := scanNames_noHash (by decide)
  rw [List.append_assoc,
    scanNames_match (matchCmd_markerU (matchFill_fill_run mid hmid' hbase)), hrest]

/-- Witness for the amended claim C3 at a blank line separator. -/
theorem blank_lines_tolerated_witness :
    (("\n\n".data).all isSpaceChar = true) ∧
    scanNames (markerU ++ "\n\n".data ++ ("fn get_weather()".data)) =
      ["get_weather".data] :=
  ⟨by decide, blank_lines_tolerated ("\n\n".data) (by decide)⟩

/-- Claim C4 counterexample: with only the manifest root existing, `build`
does not create the missing output directory — it returns the write error
and leaves the filesystem unchanged, although creating the directory would
have been possible. -/
theorem build_missing_dir_fails :
    build (some "root") "ui" [] ⟨[["root"]], []⟩ =
      (Outcome.err "No such file or directory (os error 2)", ⟨[["root"]], []⟩) := by
  decide

/-- Claim C4, amended (no directory creation): whenever the output directory
does not exist, `build` fails with the write I/O error and the filesystem is
left unchanged; the directory is never created. -/
theorem build_no_dir_creation :
    ∀ (root rel : String) (files : List (List Char)) (fs : FS),
    fs.dirs.contains [root, rel] = false →
    build (some root) rel (files.map FileEntry.ok) fs =
      (Outcome.err "No such file or directory (os error 2)", fs) := by
  intro root rel files fs h
  have hmem : ¬ ([root, rel] ∈ fs.dirs) := by simpa using h
  simp [build, parse_ok, fs_write, hmem]

/-- Witness for the amended claim C4 on an empty filesystem. -/
theorem build_no_dir_creation_witness :
    ((⟨[], []⟩ : FS).dirs.contains ["r", "ui"] = false) ∧
    build (some "r") "ui" (([] : List (List Char)).map FileEntry.ok) ⟨[], []⟩ =
      (Outcome.err "No such file or directory (os error 2)", ⟨[], []⟩) :=
  ⟨by decide, build_no_dir_creation "r" "ui" [] ⟨[], []⟩ (by decide)⟩

/-- Claim C5 counterexample: a discovery/read failure does not come back as
an error result — `build` terminates through the panicking `unwrap`
(`Outcome.crash`), even though the output directory exists. -/
theorem read_error_crashes :
    build (some "root") "ui" [FileEntry.err "permission denied"]
        ⟨[["root", "ui"]], []⟩ =
      (Outcome.crash "permission denied", ⟨[["root", "ui"]], []⟩) := by
  decide

/-- Claim C5, amended (discovery errors panic instead of returning): no
failure is ever swallowed, but only the configuration error and the write
error come back as error results; a discovery or read failure terminates
the process by panic with its cause, and an error-free run with an existing
output directory completes successfully. -/
theorem build_failure_modes :
    ∀ (root rel : String) (entries : List FileEntry) (fs : FS),
    (∀ m, firstErr entries = some m →
      build (some root) rel entries fs = (Outcome.crash m, fs)) ∧
    (firstErr entries = none → fs.dirs.contains [root, rel] = false →
      build (some root) rel entries fs =
        (Outcome.err "No such file or directory (os error 2)", fs)) ∧
    (firstErr entries = none → fs.dirs.contains [root, rel] = true →
      (build (some root) rel entries fs).1 = Outcome.ok ()) ∧
    (build none rel entries fs = (Outcome.err "environment variable not found", fs)) := by
  intro root rel entries fs
  refine ⟨fun m hm => ?_, fun h1 h2 => ?_, fun h1 h2 => ?_, rfl⟩
  · simp only [build, parse_crash hm]
  · obtain ⟨names, hn⟩ := parse_ok_of_noErr h1
    have hmem : ¬ ([root, rel] ∈ fs.dirs) := by simpa using h2
    simp [build, hn, fs_write, hmem]
  · obtain ⟨names, hn⟩ := parse_ok_of_noErr h1
    have hmem : [root, rel] ∈ fs.dirs := by simpa using h2
    simp [build, hn, fs_write, hmem]

/-- Witness for the amended claim C5: a crashing run, a write-error run and
a successful run, each at concrete inputs. -/
theorem build_failure_modes_witness :
    (firstErr [FileEntry.err "bad utf8"] = some "bad utf8") ∧
    build (some "r") "ui" [FileEntry.err "bad utf8"] ⟨[], []⟩ =
      (Outcome.crash "bad utf8", ⟨[], []⟩) ∧
    build (some "r") "ui" [] ⟨[], []⟩ =
      (Outcome.err "No such file or directory (os error 2)", ⟨[], []⟩) ∧
    (build (some "r") "ui" [] ⟨[["r", "ui"]], []⟩).1 = Outcome.ok () :=
  ⟨by decide,
    (build_failure_modes "r" "ui" [FileEntry.err "bad utf8"] ⟨[], []⟩).1 "bad utf8"
      (by decide),
    (build_failure_modes "r" "ui" [] ⟨[], []⟩).2.1 (by decide) (by decide),
    (build_failure_modes "r" "ui" [] ⟨[["r", "ui"]], []⟩).2.2.1 (by decide) (by decide)⟩

/-- Claim C6: over an error-free traversal the extractor returns, file by
file in traversal order, exactly the captures of the pattern occurrences of
each file in source order — no deduplication, no sorting; the scanner output
coincides with the per-position occurrence list, and a position carries an
occurrence exactly when the declarative marker-fill-fn-whitespace-identifier
shape is present there. -/
theorem extraction_exact_ordered :
    (∀ files : List (List Char),
      parse_functions (files.map FileEntry.ok) =
        Outcome.ok ((files.map occIdents).flatten)) ∧
    (∀ t : List Char, scanNames t = occIdents t) ∧
    (∀ (t : List Char) (p : Nat), (matchCmd (t.drop p)).isSome = true ↔ OccAt t p) := by
  refine ⟨fun files => ?_, scanNames_eq_occ, fun t p => ⟨occ_sound, occ_complete⟩⟩
  rw [parse_ok files]
  have hfun : scanNames = occIdents := funext scanNames_eq_occ
  rw [hfun]

/-- Claim C7: if every marker position fails to complete into a function
definition, the text yields no captures (and extraction is total, not an
error); and every captured name arises from a position that carries a
marker. -/
theorem capture_requires_marker :
    ∀ t : List Char,
    ((∀ p, p < t.length → hasMarkerAt t p = true → matchCmd (t.drop p) = none) →
      scanNames t = []) ∧
    (∀ name, name ∈ scanNames t →
      ∃ p, hasMarkerAt t p = true ∧ (matchCmd (t.drop p)).map Prod.fst = some name) := by
  intro t
  constructor
  · intro h
    rw [scanNames_eq_occ]
    apply occIdents_nil_of_nomatch
    intro p hp
    by_cases hmk : hasMarkerAt t p = true
    · exact h p hp hmk
    · cases hm : matchCmd (t.drop p) with
      | none => rfl
      | some r => exact absurd (matchCmd_has_marker hm) hmk
  · intro name hmem
    rw [scanNames_eq_occ] at hmem
    obtain ⟨p, hp⟩ := occ_mem t name hmem
    refine ⟨p, ?_, hp⟩
    cases hm : matchCmd (t.drop p) with
    | none => rw [hm] at hp; simp at hp
    | some r => exact matchCmd_has_marker hm

/-- Witness for claim C7: a dangling marker yields nothing, and a capture
comes with its marker position. -/
theorem capture_requires_marker_witness :
    scanNames ("#[command] struct Data;".data) = [] ∧
    (∃ p, hasMarkerAt ("#[tauri::command]\nfn go()".data) p = true ∧
      (matchCmd (("#[tauri::command]\nfn go()".data).drop p)).map Prod.fst =
        some ("go".data)) :=
  ⟨(capture_requires_marker ("#[command] struct Data;".data)).1 (by decide),
    (capture_requires_marker ("#[tauri::command]\nfn go()".data)).2 ("go".data)
      (by decide)⟩

/-- Claim C8: with zero names the renderer still produces the complete
document — the fixed boilerplate with a union that has no members (the
embedding is a total function; the empty join is just the empty string). -/
theorem get_content_empty :
    get_content [] =
      "import * as tauri from \x27@tauri-apps/api/tauri\x27;\ndeclare module \x27@tauri-apps/api/tauri\x27 \x7b\n    type Commands = \n\t\t  ;\n    function invoke<T>(cmd: Commands, args?: InvokeArgs): Promise<T>;\n\x7d" :=
  rfl

/-- Claim C9: the manifest-root variable is read first; when it is absent
the operation returns the configuration error and the filesystem is
unchanged — no output file is written. -/
theorem build_missing_env_errors :
    ∀ (rel : String) (entries : List FileEntry) (fs : FS),
    build none rel entries fs = (Outcome.err "environment variable not found", fs) :=
  fun _ _ _ => rfl

/-- Claim C10: any run of word characters and whitespace may stand between
the marker and `fn` — keywords such as `pub` or `async` do not prevent
capture, and the function identifier is still extracted. -/
theorem keywords_before_fn_tolerated :
    ∀ mid : List Char, mid.all isFillChar = true →
    scanNames (markerU ++ mid ++ ("fn foo()".data)) = ["foo".data] := by
  intro mid hmid
  have hbase : matchFill ("fn foo()".data) = some ("foo".data, "()".data) := by decide
  have hrest : scanNames ("()".data) = [] := scanNames_noHash (by decide)
  rw [List.append_assoc,
    scanNames_match (matchCmd_markerU (matchFill_fill_run mid hmid hbase)), hrest]

/-- Witness for claim C10 at the keywords `pub async`. -/
theorem keywords_before_fn_tolerated_witness :
    (("\npub async ".data).all isFillChar = true) ∧
    scanNames (markerU ++ "\npub async ".data ++ ("fn foo()".data)) = ["foo".data] :=
  ⟨by decide, keywords_before_fn_tolerated ("\npub async ".data) (by decide)⟩

end TauriNamedInvoke
